import Mathlib

/-!
Verification of the batch image classification-and-partition pipeline of the
`ImageClassifier` React component (function `processBatchImages` together with
its helpers `preprocessImage`, the inline argmax scan, the inline routing
policy, and the JSZip folder construction).

The embedding is shallow: the browser/TensorFlow environment is a record of
functions (`Env`), floating-point model outputs are modelled as rationals,
and the imperative loop of `processBatchImages` is rendered as a structural
recursion that also records the observable per-item events (progress state
updates, preprocessing, classification, result appends, and the
`onImageClassified` callback) as a trace.
-/

/-- A raw image file as selected by the user: its name, its declared content
type, and its raw bytes. The pipeline never inspects any of these fields;
bytes are carried to the archive unchanged. -/
structure Image where
  name : String
  ctype : String
  bytes : List Nat
  deriving DecidableEq

/-- The three destination categories of the routing policy: the `normal/`,
`theft/` and `unidentified/` folders of the produced archive. -/
inductive Category where
  | normal
  | theft
  | unidentified
  deriving DecidableEq

/-- One element of the `classifiedImages` session state / `processedImages`
array: the original file, the label string, the `Date.now()` timestamp and
the raw confidence value. -/
structure ClassifiedImage where
  file : Image
  classification : String
  timestamp : Nat
  confidence : ℚ
  deriving DecidableEq

/-- JavaScript `String.prototype.toLowerCase` restricted to the ASCII range
relevant to the class labels, as a structural map over the characters. -/
def jsToLowerCase (s : String) : String := String.mk (s.data.map Char.toLower)

/-- The routing policy inlined in `processBatchImages`:
`if (confidence >= 1.0) { if (classification.toLowerCase() === 'normal')
{ normal } else { theft } } else { unidentified }`. -/
def route (confidence : ℚ) (classification : String) : Category :=
  if confidence ≥ 1 then
    if jsToLowerCase classification = "normal" then Category.normal
    else Category.theft
  else Category.unidentified

/-- The argmax scan inlined in `processBatchImages`, scanning from index 1
with the running maximum initialised to `probabilities[0]`; the running
maximum is replaced only on a strictly greater value
(`probabilities[j] > maxProbability`). -/
def findMaxAux : List ℚ → Nat → Nat → ℚ → Nat × ℚ
  | [], _, maxIndex, maxProb => (maxIndex, maxProb)
  | p :: rest, j, maxIndex, maxProb =>
    if maxProb < p then findMaxAux rest (j + 1) j p
    else findMaxAux rest (j + 1) maxIndex maxProb

/-- Entry point of the argmax scan: `maxIndex = 0`,
`maxProbability = probabilities[0]`, loop from `j = 1`. -/
def findMax (probabilities : List ℚ) : Nat × ℚ :=
  match probabilities with
  | [] => (0, 0)
  | p :: rest => findMaxAux rest 1 0 p

/-- Decimal digit characters, as produced by JavaScript number-to-string
conversion of the nonnegative integers used in file names. -/
def digitChar : Nat → Char
  | 0 => '0'
  | 1 => '1'
  | 2 => '2'
  | 3 => '3'
  | 4 => '4'
  | 5 => '5'
  | 6 => '6'
  | 7 => '7'
  | 8 => '8'
  | _ => '9'

/-- Fuel-driven decimal expansion (most significant digit first) of a
natural number; `fuel` bounds the recursion depth and any `fuel > n`
is sufficient. -/
def natCharsAux : Nat → Nat → List Char
  | 0, _ => []
  | fuel + 1, n =>
    if n < 10 then [digitChar n]
    else natCharsAux fuel (n / 10) ++ [digitChar (n % 10)]

/-- The decimal digit list of a natural number. -/
def natChars (n : Nat) : List Char := natCharsAux (n + 1) n

/-- JavaScript template-literal stringification of the nonnegative integers
interpolated into archive file names. -/
def natStr (n : Nat) : String := String.mk (natChars n)

/-- The file-name template used for every archived image:
```cat_Date.now()_index.jpg``` . -/
def fileName (cat : String) (t idx : Nat) : String :=
  cat ++ "_" ++ natStr t ++ "_" ++ natStr idx ++ ".jpg"

/-- The label selection `classNames[maxIndex] || `Class ${maxIndex}``.
JavaScript `||` takes the fallback both when the index is out of range
(`undefined`) and when the stored label is the empty string (falsy). -/
def labelLookup (classNames : List String) (maxIndex : Nat) : String :=
  match classNames.get? maxIndex with
  | some s => if s = "" then "Class " ++ natStr maxIndex else s
  | none => "Class " ++ natStr maxIndex

/-- The browser / TensorFlow environment consumed by the pipeline.
`decodeDraw` models the `Image` element plus canvas draw plus
`tf.browser.fromPixels`: it yields the raw pixel channel values of the
decoded, resized image, or `none` when the image cannot be decoded, in which
case `img.onload` never fires. `predict` models `model.predict` on the
batched tensor. The `Nat → Nat` fields model the successive return values
of `Date.now()` at its various call sites, and `archiveOk` models whether
`zip.generateAsync` succeeds or throws. -/
structure Env where
  decodeDraw : Image → Option (List Nat)
  predict : List ℚ → List ℚ
  itemTime : Nat → Nat
  fileTimeNormal : Nat → Nat
  fileTimeTheft : Nat → Nat
  fileTimeUnident : Nat → Nat
  archiveOk : Bool

/-- Outcome of one call to `preprocessImage`: the promise either resolves
with the normalized tensor (on `img.onload`), or — since the promise
executor installs no `onerror` handler and never calls a rejection — it
stays pending forever when the image cannot be decoded. -/
inductive PreprocessResult where
  | resolved (tensor : List ℚ)
  | pending
  deriving DecidableEq

/-- `preprocessImage`: decode and draw the image at the fixed 224x224
resolution, then divide every channel value by 255. An undecodable image
leaves the promise unresolved forever. -/
def preprocessImage (env : Env) (imageFile : Image) : PreprocessResult :=
  match env.decodeDraw imageFile with
  | some pixels => PreprocessResult.resolved (pixels.map fun p => (p : ℚ) / 255)
  | none => PreprocessResult.pending

/-- Observable per-item events of the batch loop, in the order the code
performs them: the `setBatchProgress` state update, the completed
preprocessing, the completed classification, the push onto
`processedImages`, and the `onImageClassified` callback. -/
inductive Event where
  | progressUpdate (current total : Nat)
  | preprocess (i : Nat)
  | classify (i : Nat)
  | append (i : Nat)
  | callback (i : Nat)
  deriving DecidableEq

/-- Result of the `for` loop of `processBatchImages`: either every item was
processed (`ok`, carrying the `processedImages` list, the three category
arrays and the event trace), or the loop is suspended forever on item `i`
whose preprocessing promise never settles (`stall`). -/
inductive LoopResult where
  | ok (processed : List ClassifiedImage) (normalI theftI unidentI : List Image)
      (trace : List Event)
  | stall (i : Nat) (trace : List Event)
  deriving DecidableEq

/-- The event trace of a loop result. -/
def LoopResult.trace : LoopResult → List Event
  | LoopResult.ok _ _ _ _ tr => tr
  | LoopResult.stall _ tr => tr

/-- The `for (let i = 0; i < batchImages.length; i++)` loop of
`processBatchImages`. Each iteration first sets the progress state to
`(i + 1, total)`, then awaits `preprocessImage`, runs the model, scans for
the argmax, selects the label, routes the image into one of the three
category arrays, pushes onto `processedImages` and finally invokes the
`onImageClassified` callback. -/
def processLoop (env : Env) (classNames : List String) (total : Nat) :
    List Image → Nat → LoopResult
  | [], _ => LoopResult.ok [] [] [] [] []
  | image :: rest, i =>
    match preprocessImage env image with
    | PreprocessResult.pending =>
      LoopResult.stall i [Event.progressUpdate (i + 1) total]
    | PreprocessResult.resolved imageTensor =>
      let probabilities := env.predict imageTensor
      let fm := findMax probabilities
      let classification := labelLookup classNames fm.1
      let confidence := fm.2
      let item : ClassifiedImage :=
        ⟨image, classification, env.itemTime i, confidence⟩
      let cat := route confidence classification
      match processLoop env classNames total rest (i + 1) with
      | LoopResult.stall k tr =>
        LoopResult.stall k
          ([Event.progressUpdate (i + 1) total, Event.preprocess i,
            Event.classify i, Event.append i, Event.callback i] ++ tr)
      | LoopResult.ok processed ns ts us tr =>
        LoopResult.ok (item :: processed)
          ((if cat = Category.normal then [image] else []) ++ ns)
          ((if cat = Category.theft then [image] else []) ++ ts)
          ((if cat = Category.unidentified then [image] else []) ++ us)
          ([Event.progressUpdate (i + 1) total, Event.preprocess i,
            Event.classify i, Event.append i, Event.callback i] ++ tr)

/-- One file entry of the produced ZIP archive: its path inside the archive
and its contents. -/
structure ZipEntry where
  path : String
  content : List Nat
  deriving DecidableEq

/-- A sub-folder of the produced ZIP archive. -/
structure ZipFolder where
  name : String
  files : List ZipEntry
  deriving DecidableEq

/-- Default zip entry used with positional lookups. -/
def dfltEntry : ZipEntry := ⟨"", []⟩

/-- Default zip folder used with positional lookups. -/
def dfltFolder : ZipFolder := ⟨"", []⟩

/-- The `images.forEach((image, index) => folder.file(...))` body shared by
the three category folders: entry `index` is named
`` `${folder}_${Date.now()}_${index}.jpg` `` and carries the image's
original bytes unchanged. -/
def buildFolder (folder : String) (ts : Nat → Nat) :
    List Image → Nat → List ZipEntry
  | [], _ => []
  | image :: rest, index =>
    ⟨folder ++ "/" ++ fileName folder (ts index) index, image.bytes⟩ ::
      buildFolder folder ts rest (index + 1)

/-- The archive construction of `processBatchImages`: one folder per
category, created only when its array is non-empty
(`if (normalImages.length > 0) { ... }` and likewise for the other two). -/
def buildZip (env : Env) (normalImages theftImages unidentifiedImages : List Image) :
    List ZipFolder :=
  (if normalImages.length > 0 then
    [⟨"normal", buildFolder "normal" env.fileTimeNormal normalImages 0⟩] else [])
  ++ (if theftImages.length > 0 then
    [⟨"theft", buildFolder "theft" env.fileTimeTheft theftImages 0⟩] else [])
  ++ (if unidentifiedImages.length > 0 then
    [⟨"unidentified",
      buildFolder "unidentified" env.fileTimeUnident unidentifiedImages 0⟩] else [])

/-- The component state touched by `processBatchImages`: the session-wide
`classifiedImages` history, the selected `batchImages`, and the
`batchProgress` pair. -/
structure SessionState where
  classifiedImages : List ClassifiedImage
  batchImages : List Image
  batchProgress : Nat × Nat
  deriving DecidableEq

/-- Overall outcome of one `processBatchImages` call: the guard path
(no images selected), success with the produced archive, the `catch` path
taken on an archive failure, or suspension forever on item `i` whose
preprocessing promise never settles. -/
inductive BatchOutcome where
  | notStarted
  | success (zip : List ZipFolder)
  | failed
  | stalled (i : Nat)
  deriving DecidableEq

/-- Whether the outcome is the success path. -/
def BatchOutcome.isSuccess : BatchOutcome → Bool
  | BatchOutcome.success _ => true
  | _ => false

/-- Whether the outcome is the `catch` path taken on an archive failure. -/
def BatchOutcome.isFailed : BatchOutcome → Bool
  | BatchOutcome.failed => true
  | _ => false

/-- The folders of a successful outcome's archive. -/
def BatchOutcome.zipFolders : BatchOutcome → List ZipFolder
  | BatchOutcome.success z => z
  | _ => []

/-- The whole `processBatchImages` function. After the guard it runs the
loop; on loop completion it builds the ZIP. If `zip.generateAsync`
succeeds, the download is triggered, `processedImages` is appended to the
session's `classifiedImages`, `batchImages` is cleared and the `finally`
block resets the progress pair; if it throws, control jumps to the `catch`
block (an alert) and then the `finally` block, so only the progress pair
changes. If the loop stalls, neither `catch` nor `finally` ever run and
the state keeps the progress value set at the top of the stalled
iteration. -/
def processBatchImages (env : Env) (classNames : List String)
    (s : SessionState) : SessionState × BatchOutcome × List Event :=
  if s.batchImages.length = 0 then (s, BatchOutcome.notStarted, [])
  else
    let total := s.batchImages.length
    match processLoop env classNames total s.batchImages 0 with
    | LoopResult.stall i tr =>
      ({ s with batchProgress := (i + 1, total) }, BatchOutcome.stalled i,
        Event.progressUpdate 0 total :: tr)
    | LoopResult.ok processed ns ts us tr =>
      if env.archiveOk then
        (⟨s.classifiedImages ++ processed, [], (0, 0)⟩,
          BatchOutcome.success (buildZip env ns ts us),
          Event.progressUpdate 0 total :: tr)
      else
        ({ s with batchProgress := (0, 0) }, BatchOutcome.failed,
          Event.progressUpdate 0 total :: tr)

/-- Accumulating scan for the last `progressUpdate` event of a trace. -/
def lastPU (acc : Option (Nat × Nat)) : List Event → Option (Nat × Nat)
  | [] => acc
  | Event.progressUpdate c t :: tr => lastPU (some (c, t)) tr
  | _ :: tr => lastPU acc tr

/-- The `(current, total)` pair of the last `setBatchProgress` call recorded
in a trace, if any. -/
def lastProgressUpdate (tr : List Event) : Option (Nat × Nat) := lastPU none tr

/-- The default class-name list hardcoded in the component:
`useState<string[]>(['theft', 'Normal'])`. -/
def defaultClassNames : List String := ["theft", "Normal"]

/-- A concrete image fixture. -/
def imgA : Image := ⟨"a.png", "image/png", [1, 2, 3]⟩

/-- A second concrete image fixture. -/
def imgB : Image := ⟨"b.bmp", "image/bmp", [7]⟩

/-- A concrete environment in which every image decodes to an empty pixel
list, the model always answers `[1, 0]`, every `Date.now()` call returns
1000, and archive generation succeeds. -/
def envW : Env :=
  ⟨fun _ => some [], fun _ => [1, 0], fun _ => 1000, fun _ => 1000,
    fun _ => 1000, fun _ => 1000, true⟩

/-- `envW` with a failing `zip.generateAsync`. -/
def envFail : Env :=
  ⟨fun _ => some [], fun _ => [1, 0], fun _ => 1000, fun _ => 1000,
    fun _ => 1000, fun _ => 1000, false⟩

/-- An environment in which no image can be decoded: `img.onload` never
fires. -/
def envBad : Env :=
  ⟨fun _ => none, fun _ => [1, 0], fun _ => 1000, fun _ => 1000,
    fun _ => 1000, fun _ => 1000, true⟩

/-- A fresh session holding one selected batch image. -/
def sW : SessionState := ⟨[], [imgA], (0, 0)⟩

/-- C1: The routing policy is a pure function of `(confidence, label)`:
with `confidence >= 1.0` a label that lowercases to `"normal"` is routed to
the normal category and any other label to the theft/tampered category;
every confidence strictly below `1.0` is routed to unidentified regardless
of label. -/
theorem route_policy_spec (confidence : ℚ) (label : String) :
    (confidence ≥ 1 → jsToLowerCase label = "normal" →
      route confidence label = Category.normal) ∧
    (confidence ≥ 1 → jsToLowerCase label ≠ "normal" →
      route confidence label = Category.theft) ∧
    (confidence < 1 → route confidence label = Category.unidentified) := by
  refine ⟨fun h1 h2 => ?_, fun h1 h2 => ?_, fun h => ?_⟩
  · simp [route, h1, h2]
  · simp [route, h1, h2]
  · simp [route, not_le.mpr h]

/-- Witness for C1 at the routing boundary: full confidence with a label
lowercasing to `"normal"`, full confidence with another label, and a
confidence below `1.0`. -/
theorem route_policy_spec_witness :
    route 1 "Normal" = Category.normal ∧ route 1 "Theft" = Category.theft ∧
    route 0 "normal" = Category.unidentified :=
  ⟨(route_policy_spec 1 "Normal").1 (by decide) (by decide),
   (route_policy_spec 1 "Theft").2.1 (by decide) (by decide),
   (route_policy_spec 0 "normal").2.2 (by decide)⟩

/-- The running maximum of the argmax scan only grows, and it dominates
every scanned element. -/
theorem findMaxAux_ge (rest : List ℚ) : ∀ (j mi : Nat) (mp : ℚ),
    mp ≤ (findMaxAux rest j mi mp).2 ∧
    ∀ k < rest.length, rest.getD k 0 ≤ (findMaxAux rest j mi mp).2 := by
  induction rest with
  | nil =>
    intro j mi mp
    exact ⟨le_refl _, fun k hk => absurd hk (by simp)⟩
  | cons p rest ih =>
    intro j mi mp
    by_cases h : mp < p
    · simp only [findMaxAux, if_pos h]
      obtain ⟨h1, h2⟩ := ih (j + 1) j p
      refine ⟨le_of_lt (lt_of_lt_of_le h h1), ?_⟩
      intro k hk
      cases k with
      | zero => simpa using h1
      | succ k2 =>
        rw [List.getD_cons_succ]
        exact h2 k2 (by simpa using hk)
    · simp only [findMaxAux, if_neg h]
      obtain ⟨h1, h2⟩ := ih (j + 1) mi mp
      refine ⟨h1, ?_⟩
      intro k hk
      cases k with
      | zero => simpa using le_trans (le_of_not_lt h) h1
      | succ k2 =>
        rw [List.getD_cons_succ]
        exact h2 k2 (by simpa using hk)

/-- The argmax scan either keeps the incoming candidate or selects a
position among the scanned elements whose value strictly exceeds the
incoming candidate value. -/
theorem findMaxAux_realize (rest : List ℚ) : ∀ (j mi : Nat) (mp : ℚ),
    findMaxAux rest j mi mp = (mi, mp) ∨
    ∃ k, k < rest.length ∧ (findMaxAux rest j mi mp).1 = j + k ∧
      (findMaxAux rest j mi mp).2 = rest.getD k 0 ∧
      mp < (findMaxAux rest j mi mp).2 := by
  induction rest with
  | nil => intro j mi mp; exact Or.inl rfl
  | cons p rest ih =>
    intro j mi mp
    by_cases h : mp < p
    · simp only [findMaxAux, if_pos h]
      rcases ih (j + 1) j p with hA | ⟨k, hk, h1, h2, h3⟩
      · refine Or.inr ⟨0, by simp, ?_, ?_, ?_⟩
        · rw [hA]; simp
        · rw [hA]; simp
        · rw [hA]; exact h
      · refine Or.inr ⟨k + 1, by simpa using hk, ?_, ?_, lt_trans h h3⟩
        · rw [h1]; omega
        · rw [List.getD_cons_succ]; exact h2
    · simp only [findMaxAux, if_neg h]
      rcases ih (j + 1) mi mp with hA | ⟨k, hk, h1, h2, h3⟩
      · exact Or.inl hA
      · refine Or.inr ⟨k + 1, by simpa using hk, ?_, ?_, h3⟩
        · rw [h1]; omega
        · rw [List.getD_cons_succ]; exact h2

/-- Every scanned element strictly before the finally selected position is
strictly below the selected value: the scan keeps the first maximum. -/
theorem findMaxAux_before (rest : List ℚ) : ∀ (j mi : Nat) (mp : ℚ), mi < j →
    ∀ k, k < rest.length → j + k < (findMaxAux rest j mi mp).1 →
      rest.getD k 0 < (findMaxAux rest j mi mp).2 := by
  induction rest with
  | nil => intro j mi mp _ k hk; exact absurd hk (by simp)
  | cons p rest ih =>
    intro j mi mp hmi k hk hlt
    by_cases h : mp < p
    · simp only [findMaxAux, if_pos h] at hlt ⊢
      cases k with
      | zero =>
        rcases findMaxAux_realize rest (j + 1) j p with hA | ⟨k2, hk2, h1, h2, h3⟩
        · rw [hA] at hlt; simp at hlt
        · simpa using h3
      | succ k2 =>
        rw [List.getD_cons_succ]
        exact ih (j + 1) j p (by omega) k2 (by simpa using hk) (by omega)
    · simp only [findMaxAux, if_neg h] at hlt ⊢
      cases k with
      | zero =>
        rcases findMaxAux_realize rest (j + 1) mi mp with hA | ⟨k2, hk2, h1, h2, h3⟩
        · rw [hA] at hlt; simp at hlt; omega
        · simpa using lt_of_le_of_lt (le_of_not_lt h) h3
      | succ k2 =>
        rw [List.getD_cons_succ]
        exact ih (j + 1) mi mp (by omega) k2 (by simpa using hk) (by omega)

/-- C3: The argmax over the model output vector takes the first
(lowest-index) maximum: the selected index is in range, holds the selected
value, the selected value dominates every entry, and every entry strictly
before the selected index is strictly smaller. -/
theorem findMax_first_max (probs : List ℚ) (h : probs ≠ []) :
    (findMax probs).1 < probs.length ∧
    probs.getD (findMax probs).1 0 = (findMax probs).2 ∧
    (∀ k < probs.length, probs.getD k 0 ≤ (findMax probs).2) ∧
    (∀ k < (findMax probs).1, probs.getD k 0 < (findMax probs).2) := by
  match probs with
  | [] => exact absurd rfl h
  | p :: rest =>
    simp only [findMax]
    have hge := findMaxAux_ge rest 1 0 p
    have hre := findMaxAux_realize rest 1 0 p
    have hlen : (findMaxAux rest 1 0 p).1 < rest.length + 1 := by
      rcases hre with hA | ⟨k, hk, h1, _, _⟩
      · rw [hA]; simp
      · rw [h1]; omega
    refine ⟨by simpa using hlen, ?_, ?_, ?_⟩
    · rcases hre with hA | ⟨k, hk, h1, h2, _⟩
      · rw [hA]; simp
      · rw [h1, Nat.add_comm 1 k, List.getD_cons_succ]
        exact h2.symm
    · intro k hk
      cases k with
      | zero => simpa using hge.1
      | succ k2 =>
        rw [List.getD_cons_succ]
        exact hge.2 k2 (by simpa using hk)
    · intro k hk
      cases k with
      | zero =>
        rcases hre with hA | ⟨k2, hk2, h1, h2, h3⟩
        · rw [hA] at hk; simp at hk
        · simpa using h3
      | succ k2 =>
        have hk2len : k2 < rest.length := by omega
        rw [List.getD_cons_succ]
        exact findMaxAux_before rest 1 0 p (by omega) k2 hk2len (by omega)

/-- Witness for C3 at the spec's tie-break example: on the output vector
`[0.5, 0.5]` the classifier deterministically selects index 0. -/
theorem findMax_first_max_witness : (findMax [(1 : ℚ) / 2, 1 / 2]).1 = 0 := by
  obtain ⟨h1, h2, h3, h4⟩ := findMax_first_max [(1 : ℚ) / 2, 1 / 2] (by simp)
  by_contra hne
  have h0 : (findMax [(1 : ℚ) / 2, 1 / 2]).1 = 1 := by
    simp only [List.length_cons, List.length_nil] at h1
    omega
  have hlt := h4 0 (by omega)
  rw [h0, List.getD_cons_succ, List.getD_cons_zero] at h2
  rw [List.getD_cons_zero, ← h2] at hlt
  exact lt_irrefl _ hlt

/-- Distinct decimal digits map to distinct digit characters. -/
theorem digitChar_inj : ∀ a < 10, ∀ b < 10, digitChar a = digitChar b → a = b := by
  decide

/-- With positive fuel the decimal expansion is never empty. -/
theorem natCharsAux_ne_nil (fuel n : Nat) : natCharsAux (fuel + 1) n ≠ [] := by
  simp only [natCharsAux]
  split <;> simp

/-- The decimal expansion does not depend on the fuel, as long as the fuel
exceeds the number. -/
theorem natCharsAux_fuel (n : Nat) : ∀ (f1 f2 : Nat), n < f1 → n < f2 →
    natCharsAux f1 n = natCharsAux f2 n := by
  induction n using Nat.strong_induction_on with
  | _ n ih =>
    intro f1 f2 h1 h2
    cases f1 with
    | zero => omega
    | succ fa =>
      cases f2 with
      | zero => omega
      | succ fb =>
        by_cases h : n < 10
        · simp [natCharsAux, h]
        · simp only [natCharsAux, if_neg h]
          have hd : n / 10 < n := Nat.div_lt_self (by omega) (by omega)
          rw [ih (n / 10) hd fa fb (by omega) (by omega)]

/-- The decimal expansion is injective (given sufficient fuel on both
sides). -/
theorem natCharsAux_inj (n : Nat) : ∀ (m fa fb : Nat), n < fa → m < fb →
    natCharsAux fa n = natCharsAux fb m → n = m := by
  induction n using Nat.strong_induction_on with
  | _ n ih =>
    intro m fa fb hfa hfb heq
    cases fa with
    | zero => omega
    | succ fa =>
      cases fb with
      | zero => omega
      | succ fb =>
        by_cases hn : n < 10 <;> by_cases hm : m < 10
        · simp only [natCharsAux, if_pos hn, if_pos hm] at heq
          exact digitChar_inj n hn m hm (by simpa using heq)
        · exfalso
          simp only [natCharsAux, if_pos hn, if_neg hm] at heq
          have hlen := congrArg List.length heq
          simp at hlen
          cases fb with
          | zero => omega
          | succ fc => exact natCharsAux_ne_nil fc (m / 10) hlen
        · exfalso
          simp only [natCharsAux, if_neg hn, if_pos hm] at heq
          have hlen := congrArg List.length heq
          simp at hlen
          cases fa with
          | zero => omega
          | succ fc => exact natCharsAux_ne_nil fc (n / 10) hlen
        · simp only [natCharsAux, if_neg hn, if_neg hm] at heq
          obtain ⟨hpre, hd⟩ := List.append_inj' heq rfl
          have hmod : n % 10 = m % 10 :=
            digitChar_inj (n % 10) (Nat.mod_lt _ (by omega)) (m % 10)
              (Nat.mod_lt _ (by omega)) (by simpa using hd)
          have hdiv : n / 10 = m / 10 :=
            ih (n / 10) (Nat.div_lt_self (by omega) (by omega)) (m / 10) fa fb
              (by omega) (by omega) hpre
          omega

/-- JavaScript decimal stringification of naturals is injective. -/
theorem natStr_inj (m n : Nat) (h : natStr m = natStr n) : m = n :=
  natCharsAux_inj m n (m + 1) (n + 1) (Nat.lt_succ_self m) (Nat.lt_succ_self n)
    (congrArg String.data h)

/-- String concatenation concatenates the underlying character lists. -/
theorem strData_append (a b : String) : (a ++ b).data = a.data ++ b.data := rfl

/-- Strings with equal character lists are equal. -/
theorem strExt (s t : String) (h : s.data = t.data) : s = t :=
  congrArg String.mk h

/-- String concatenation is left-cancellative. -/
theorem strApp_left_cancel (a s t : String) (h : a ++ s = a ++ t) : s = t := by
  have hd : a.data ++ s.data = a.data ++ t.data := by
    rw [← strData_append, ← strData_append, h]
  exact strExt s t (List.append_cancel_left hd)

/-- A decimal numeral enclosed between two fixed strings determines the
number. -/
theorem natStr_mid_inj (a b : String) (i j : Nat)
    (h : a ++ natStr i ++ b = a ++ natStr j ++ b) : i = j := by
  have hd : (a ++ natStr i).data ++ b.data = (a ++ natStr j).data ++ b.data := by
    rw [← strData_append, ← strData_append, h]
  have h2 : a ++ natStr i = a ++ natStr j :=
    strExt _ _ (List.append_cancel_right hd)
  exact natStr_inj i j (strApp_left_cancel a _ _ h2)

/-- For a fixed category and a fixed timestamp, the generated file name
determines the per-category index. -/
theorem fileName_idx_inj (cat : String) (t i j : Nat)
    (h : fileName cat t i = fileName cat t j) : i = j :=
  natStr_mid_inj (cat ++ "_" ++ natStr t ++ "_") ".jpg" i j h

/-- A folder holds exactly one entry per image. -/
theorem buildFolder_length (folder : String) (ts : Nat → Nat) :
    ∀ (imgs : List Image) (i0 : Nat),
      (buildFolder folder ts imgs i0).length = imgs.length := by
  intro imgs
  induction imgs with
  | nil => intro i0; rfl
  | cons im rest ih => intro i0; simp [buildFolder, ih]

/-- The path of the `k`-th entry of a folder built starting at index `i0`. -/
theorem buildFolder_getD_path (folder : String) (ts : Nat → Nat) :
    ∀ (imgs : List Image) (i0 k : Nat), k < imgs.length →
      ((buildFolder folder ts imgs i0).getD k dfltEntry).path =
        folder ++ "/" ++ fileName folder (ts (i0 + k)) (i0 + k) := by
  intro imgs
  induction imgs with
  | nil => intro i0 k hk; simp at hk
  | cons im rest ih =>
    intro i0 k hk
    cases k with
    | zero => simp [buildFolder]
    | succ k2 =>
      simp only [buildFolder, List.getD_cons_succ]
      rw [ih (i0 + 1) k2 (by simpa using hk)]
      have harith : i0 + 1 + k2 = i0 + (k2 + 1) := by omega
      rw [harith]

/-- C6: Two images placed in the same category folder within the same
millisecond (identical coarse timestamps) still receive distinct file
names, because the per-category index differs. -/
theorem buildFolder_same_millisecond_distinct (cat : String) (t : Nat)
    (imgs : List Image) (i j : Nat) (hi : i < imgs.length)
    (hj : j < imgs.length) (hij : i ≠ j) :
    ((buildFolder cat (fun _ => t) imgs 0).getD i dfltEntry).path ≠
      ((buildFolder cat (fun _ => t) imgs 0).getD j dfltEntry).path := by
  intro h
  rw [buildFolder_getD_path cat (fun _ => t) imgs 0 i hi,
      buildFolder_getD_path cat (fun _ => t) imgs 0 j hj] at h
  simp only [Nat.zero_add] at h
  exact hij (fileName_idx_inj cat t i j (strApp_left_cancel (cat ++ "/") _ _ h))

/-- Witness for C6: two concrete images in the `normal/` folder with the
same millisecond timestamp get different file names. -/
theorem buildFolder_same_millisecond_distinct_witness :
    ((buildFolder "normal" (fun _ => 7) [imgA, imgB] 0).getD 0 dfltEntry).path ≠
      ((buildFolder "normal" (fun _ => 7) [imgA, imgB] 0).getD 1 dfltEntry).path :=
  buildFolder_same_millisecond_distinct "normal" 7 [imgA, imgB] 0 1
    (by decide) (by decide) (by decide)

/-- Routing one image into its category array grows exactly one of the
three arrays by one. -/
theorem routed_lengths (c : Category) (image : Image) (ns ts us : List Image) :
    ((if c = Category.normal then [image] else []) ++ ns).length +
    ((if c = Category.theft then [image] else []) ++ ts).length +
    ((if c = Category.unidentified then [image] else []) ++ us).length =
    ns.length + ts.length + us.length + 1 := by
  cases c <;> simp <;> omega

/-- Membership in a conditionally-prepended singleton. -/
theorem mem_if_singleton {b : Prop} [Decidable b] (image x : Image)
    (g : List Image) (hx : x ∈ (if b then [image] else []) ++ g) :
    x = image ∨ x ∈ g := by
  rcases List.mem_append.mp hx with h | h
  · split at h
    · exact Or.inl (by simpa using h)
    · simp at h
  · exact Or.inr h

/-- The last-progress scan distributes over trace concatenation. -/
theorem lastPU_append (acc : Option (Nat × Nat)) (l1 l2 : List Event) :
    lastPU acc (l1 ++ l2) = lastPU (lastPU acc l1) l2 := by
  induction l1 generalizing acc with
  | nil => rfl
  | cons e tr ih => cases e <;> simp [lastPU, ih]

/-- Master invariant of a completed batch loop: the processed list mirrors
the inputs in order, the three category arrays partition the inputs, every
routed image is one of the inputs, and the last progress update recorded in
the trace is `(i + inputs.length, total)`. -/
theorem processLoop_ok_spec (env : Env) (cn : List String) (total : Nat) :
    ∀ (inputs : List Image) (i : Nat) (p : List ClassifiedImage)
      (ns ts us : List Image) (tr : List Event),
      processLoop env cn total inputs i = LoopResult.ok p ns ts us tr →
      p.map ClassifiedImage.file = inputs ∧
      ns.length + ts.length + us.length = inputs.length ∧
      (∀ x ∈ ns, x ∈ inputs) ∧ (∀ x ∈ ts, x ∈ inputs) ∧
      (∀ x ∈ us, x ∈ inputs) ∧
      (∀ acc, inputs ≠ [] → lastPU acc tr = some (i + inputs.length, total)) := by
  intro inputs
  induction inputs with
  | nil =>
    intro i p ns ts us tr h
    simp only [processLoop, LoopResult.ok.injEq] at h
    obtain ⟨hp, hns, hts, hus, htr⟩ := h
    subst hp hns hts hus htr
    exact ⟨rfl, rfl, by simp, by simp, by simp, fun acc hne => absurd rfl hne⟩
  | cons image rest ih =>
    intro i p ns ts us tr h
    cases hpre : preprocessImage env image with
    | pending =>
      simp only [processLoop, hpre] at h
      simp at h
    | resolved tens =>
      simp only [processLoop, hpre] at h
      cases hrec : processLoop env cn total rest (i + 1) with
      | stall k tr2 =>
        rw [hrec] at h
        simp at h
      | ok p2 ns2 ts2 us2 tr2 =>
        rw [hrec] at h
        simp only [LoopResult.ok.injEq] at h
        obtain ⟨hp, hns, hts, hus, htr⟩ := h
        subst hp hns hts hus htr
        obtain ⟨ih1, ih2, ih3, ih4, ih5, ih6⟩ := ih (i + 1) p2 ns2 ts2 us2 tr2 hrec
        refine ⟨?_, ?_, ?_, ?_, ?_, ?_⟩
        · simp [ih1]
        · rw [routed_lengths, ih2]
          simp
        · intro x hx
          rcases mem_if_singleton image x ns2 hx with rfl | hx2
          · exact List.mem_cons_self _ _
          · exact List.mem_cons_of_mem _ (ih3 x hx2)
        · intro x hx
          rcases mem_if_singleton image x ts2 hx with rfl | hx2
          · exact List.mem_cons_self _ _
          · exact List.mem_cons_of_mem _ (ih4 x hx2)
        · intro x hx
          rcases mem_if_singleton image x us2 hx with rfl | hx2
          · exact List.mem_cons_self _ _
          · exact List.mem_cons_of_mem _ (ih5 x hx2)
        · intro acc _
          rw [lastPU_append]
          show lastPU (some (i + 1, total)) tr2 = _
          cases rest with
          | nil =>
            simp only [processLoop, LoopResult.ok.injEq] at hrec
            obtain ⟨_, _, _, _, htr2⟩ := hrec
            subst htr2
            simp [lastPU]
          | cons r2 rs =>
            have h6 := ih6 (some (i + 1, total)) (by simp)
            rw [h6]
            have harith : i + 1 + (r2 :: rs).length = i + (image :: r2 :: rs).length := by
              simp [List.length_cons]
              omega
            rw [harith]

/-- C2: A successful batch run appends exactly one `ClassifiedItem` per
input to the session's results, in input order (the appended block maps
back to the input list index for index), and the final progress update of
the run reports `completed = total = inputs.length`. -/
theorem processBatchImages_success_postcondition (env : Env)
    (cn : List String) (s : SessionState)
    (h : ((processBatchImages env cn s).2.1).isSuccess = true) :
    ((processBatchImages env cn s).1.classifiedImages).length =
      s.classifiedImages.length + s.batchImages.length ∧
    ((processBatchImages env cn s).1.classifiedImages).take
      s.classifiedImages.length = s.classifiedImages ∧
    (((processBatchImages env cn s).1.classifiedImages).drop
      s.classifiedImages.length).map ClassifiedImage.file = s.batchImages ∧
    lastProgressUpdate (processBatchImages env cn s).2.2 =
      some (s.batchImages.length, s.batchImages.length) := by
  by_cases hguard : s.batchImages.length = 0
  · simp [processBatchImages, hguard, BatchOutcome.isSuccess] at h
  · cases hloop : processLoop env cn s.batchImages.length s.batchImages 0 with
    | stall i tr =>
      simp [processBatchImages, hguard, hloop, BatchOutcome.isSuccess] at h
    | ok p ns ts us tr =>
      by_cases hak : env.archiveOk = true
      · obtain ⟨h1, _, _, _, _, h6⟩ :=
          processLoop_ok_spec env cn s.batchImages.length s.batchImages 0
            p ns ts us tr hloop
        have hlen : p.length = s.batchImages.length := by
          have := congrArg List.length h1
          simpa using this
        simp only [processBatchImages, if_neg hguard, hloop, hak, if_pos]
        refine ⟨?_, ?_, ?_, ?_⟩
        · simp [hlen]
        · exact List.take_left _ _
        · rw [List.drop_left]
          exact h1
        · have hne : s.batchImages ≠ [] := by
            intro hnil
            exact hguard (by simp [hnil])
          have h6x := h6 (some (0, s.batchImages.length)) hne
          simp only [lastProgressUpdate, lastPU]
          simpa using h6x
      · simp [processBatchImages, hguard, hloop, hak, BatchOutcome.isSuccess] at h

/-- Witness for C2: the concrete one-image success run. -/
theorem processBatchImages_success_postcondition_witness :
    ((processBatchImages envW defaultClassNames sW).1.classifiedImages).length =
      sW.classifiedImages.length + sW.batchImages.length ∧
    (((processBatchImages envW defaultClassNames sW).1.classifiedImages).drop
      sW.classifiedImages.length).map ClassifiedImage.file = sW.batchImages :=
  ⟨(processBatchImages_success_postcondition envW defaultClassNames sW
      (by decide)).1,
   (processBatchImages_success_postcondition envW defaultClassNames sW
      (by decide)).2.2.1⟩

/-- A folder built from a non-empty image group is non-empty. -/
theorem buildFolder_ne_nil (folder : String) (ts : Nat → Nat)
    (imgs : List Image) (i0 : Nat) (h : imgs ≠ []) :
    buildFolder folder ts imgs i0 ≠ [] := by
  cases imgs with
  | nil => exact absurd rfl h
  | cons im rest => simp [buildFolder]

/-- The total number of files in the archive is the sum of the three group
sizes. -/
theorem buildZip_total (env : Env) (ns ts us : List Image) :
    ((buildZip env ns ts us).map fun f => f.files.length).sum =
      ns.length + ts.length + us.length := by
  rcases Nat.eq_zero_or_pos ns.length with h1 | h1 <;>
    rcases Nat.eq_zero_or_pos ts.length with h2 | h2 <;>
      rcases Nat.eq_zero_or_pos us.length with h3 | h3 <;>
        (simp [buildZip, h1, h2, h3, buildFolder_length]; try omega)

/-- The archive's folder names and per-folder file counts: one folder per
non-empty category, carrying exactly that category's group size. -/
theorem buildZip_names (env : Env) (ns ts us : List Image) :
    (buildZip env ns ts us).map (fun f => (f.name, f.files.length)) =
      (if ns.length > 0 then [("normal", ns.length)] else []) ++
      (if ts.length > 0 then [("theft", ts.length)] else []) ++
      (if us.length > 0 then [("unidentified", us.length)] else []) := by
  rcases Nat.eq_zero_or_pos ns.length with h1 | h1 <;>
    rcases Nat.eq_zero_or_pos ts.length with h2 | h2 <;>
      rcases Nat.eq_zero_or_pos us.length with h3 | h3 <;>
        simp [buildZip, h1, h2, h3, buildFolder_length]

/-- Every folder of a built archive holds the entries built from one of the
three category groups. -/
theorem buildZip_mem (env : Env) (ns ts us : List Image) (f : ZipFolder)
    (hf : f ∈ buildZip env ns ts us) :
    (f.name = "normal" ∧ ns ≠ [] ∧
      f.files = buildFolder "normal" env.fileTimeNormal ns 0) ∨
    (f.name = "theft" ∧ ts ≠ [] ∧
      f.files = buildFolder "theft" env.fileTimeTheft ts 0) ∨
    (f.name = "unidentified" ∧ us ≠ [] ∧
      f.files = buildFolder "unidentified" env.fileTimeUnident us 0) := by
  simp only [buildZip, List.mem_append] at hf
  rcases hf with (hf | hf) | hf
  · left
    split at hf
    case isTrue hpos =>
      simp only [List.mem_singleton] at hf
      subst hf
      exact ⟨rfl, List.length_pos.mp hpos, rfl⟩
    case isFalse _ => simp at hf
  · right; left
    split at hf
    case isTrue hpos =>
      simp only [List.mem_singleton] at hf
      subst hf
      exact ⟨rfl, List.length_pos.mp hpos, rfl⟩
    case isFalse _ => simp at hf
  · right; right
    split at hf
    case isTrue hpos =>
      simp only [List.mem_singleton] at hf
      subst hf
      exact ⟨rfl, List.length_pos.mp hpos, rfl⟩
    case isFalse _ => simp at hf

/-- C7: For a completed batch of `N` inputs routed as `a` normal, `b`
theft, `c` unidentified, the three groups partition the inputs
(`a + b + c = N`), the archive holds exactly `a + b + c` files, its folders
are exactly the non-empty categories with matching per-folder counts, and
no folder is created for an empty category. -/
theorem processLoop_archive_completeness (env : Env) (cn : List String)
    (total : Nat) (inputs : List Image) (i : Nat) (p : List ClassifiedImage)
    (ns ts us : List Image) (tr : List Event)
    (h : processLoop env cn total inputs i = LoopResult.ok p ns ts us tr) :
    ns.length + ts.length + us.length = inputs.length ∧
    ((buildZip env ns ts us).map fun f => f.files.length).sum = inputs.length ∧
    (buildZip env ns ts us).map (fun f => (f.name, f.files.length)) =
      (if ns.length > 0 then [("normal", ns.length)] else []) ++
      (if ts.length > 0 then [("theft", ts.length)] else []) ++
      (if us.length > 0 then [("unidentified", us.length)] else []) ∧
    ∀ f ∈ buildZip env ns ts us, f.files ≠ [] := by
  obtain ⟨_, h2, _⟩ :=
    processLoop_ok_spec env cn total inputs i p ns ts us tr h
  refine ⟨h2, by rw [buildZip_total, h2], buildZip_names env ns ts us, ?_⟩
  intro f hf
  rcases buildZip_mem env ns ts us f hf with ⟨_, hne, hfe⟩ | ⟨_, hne, hfe⟩ |
    ⟨_, hne, hfe⟩ <;>
    · rw [hfe]
      exact buildFolder_ne_nil _ _ _ _ hne

/-- Witness for C7: the concrete one-image run routed to `theft`. -/
theorem processLoop_archive_completeness_witness :
    ([] : List Image).length + [imgA].length + ([] : List Image).length =
      [imgA].length ∧
    ((buildZip envW [] [imgA] []).map fun f => f.files.length).sum =
      [imgA].length :=
  ⟨(processLoop_archive_completeness envW defaultClassNames 1 [imgA] 0
      [⟨imgA, "theft", 1000, 1⟩] [] [imgA] []
      [Event.progressUpdate 1 1, Event.preprocess 0, Event.classify 0,
       Event.append 0, Event.callback 0] (by decide)).1,
   (processLoop_archive_completeness envW defaultClassNames 1 [imgA] 0
      [⟨imgA, "theft", 1000, 1⟩] [] [imgA] []
      [Event.progressUpdate 1 1, Event.preprocess 0, Event.classify 0,
       Event.append 0, Event.callback 0] (by decide)).2.1⟩

/-- Every entry of a built folder is named with the fixed `.jpg` suffix and
carries the bytes of one of the folder's images unchanged. -/
theorem buildFolder_mem (folder : String) (ts : Nat → Nat) :
    ∀ (imgs : List Image) (i0 : Nat) (e : ZipEntry),
      e ∈ buildFolder folder ts imgs i0 →
      (".jpg".data <:+ e.path.data) ∧ ∃ img ∈ imgs, e.content = img.bytes := by
  intro imgs
  induction imgs with
  | nil => intro i0 e he; simp [buildFolder] at he
  | cons im rest ih =>
    intro i0 e he
    rcases List.mem_cons.mp he with rfl | he2
    · constructor
      · show ".jpg".data <:+
          ((folder ++ "/") ++ fileName folder (ts i0) i0).data
        rw [strData_append]
        refine List.IsSuffix.trans ?_ (List.suffix_append _ _)
        simp only [fileName]
        rw [strData_append]
        exact List.suffix_append _ _
      · exact ⟨im, List.mem_cons_self _ _, rfl⟩
    · obtain ⟨hs, img, himg, hc⟩ := ih (i0 + 1) e he2
      exact ⟨hs, img, List.mem_cons_of_mem _ himg, hc⟩

/-- C10: Every file written into the archive of a successful run is named
with the fixed `.jpg` suffix — regardless of the original image's content
type or file name — and its contents are the original image's bytes
unchanged. -/
theorem archive_entries_jpg_unchanged (env : Env) (cn : List String)
    (s : SessionState) (f : ZipFolder)
    (hf : f ∈ ((processBatchImages env cn s).2.1).zipFolders)
    (e : ZipEntry) (he : e ∈ f.files) :
    (".jpg".data <:+ e.path.data) ∧
    ∃ img ∈ s.batchImages, e.content = img.bytes := by
  by_cases hguard : s.batchImages.length = 0
  · simp [processBatchImages, hguard, BatchOutcome.zipFolders] at hf
  · cases hloop : processLoop env cn s.batchImages.length s.batchImages 0 with
    | stall i tr =>
      simp [processBatchImages, hguard, hloop, BatchOutcome.zipFolders] at hf
    | ok p ns ts us tr =>
      by_cases hak : env.archiveOk = true
      · have hzf : f ∈ buildZip env ns ts us := by
          simpa [processBatchImages, hguard, hloop, hak,
            BatchOutcome.zipFolders] using hf
        obtain ⟨_, _, hns, hts, hus, _⟩ :=
          processLoop_ok_spec env cn s.batchImages.length s.batchImages 0
            p ns ts us tr hloop
        rcases buildZip_mem env ns ts us f hzf with ⟨_, _, hfe⟩ | ⟨_, _, hfe⟩ |
          ⟨_, _, hfe⟩
        · rw [hfe] at he
          obtain ⟨hs, img, himg, hc⟩ :=
            buildFolder_mem "normal" env.fileTimeNormal ns 0 e he
          exact ⟨hs, img, hns img himg, hc⟩
        · rw [hfe] at he
          obtain ⟨hs, img, himg, hc⟩ :=
            buildFolder_mem "theft" env.fileTimeTheft ts 0 e he
          exact ⟨hs, img, hts img himg, hc⟩
        · rw [hfe] at he
          obtain ⟨hs, img, himg, hc⟩ :=
            buildFolder_mem "unidentified" env.fileTimeUnident us 0 e he
          exact ⟨hs, img, hus img himg, hc⟩
      · simp [processBatchImages, hguard, hloop, hak,
          BatchOutcome.zipFolders] at hf

/-- The first folder of the concrete success run's archive. -/
def folderW : ZipFolder :=
  ((processBatchImages envW defaultClassNames sW).2.1).zipFolders.getD 0
    dfltFolder

/-- The first entry of `folderW`. -/
def entryW : ZipEntry := folderW.files.getD 0 dfltEntry

/-- Witness for C10: the concrete archived entry ends in `.jpg` and holds
the source image's bytes. -/
theorem archive_entries_jpg_unchanged_witness :
    (".jpg".data <:+ entryW.path.data) ∧
    ∃ img ∈ sW.batchImages, entryW.content = img.bytes :=
  archive_entries_jpg_unchanged envW defaultClassNames sW folderW (by decide)
    entryW (by decide)

/-- The per-item event order the code performs: the progress state update
comes first, before preprocessing and classification, and the callback
comes last. -/
def codeItemTrace (total i : Nat) : List Event :=
  [Event.progressUpdate (i + 1) total, Event.preprocess i, Event.classify i,
   Event.append i, Event.callback i]

/-- Modelled from the spec: the per-item event order the specification
asserts — preprocess, then classify, then append the result, then update
the progress counter, then invoke the per-item callback. -/
def specItemTrace (total i : Nat) : List Event :=
  [Event.preprocess i, Event.classify i, Event.append i,
   Event.progressUpdate (i + 1) total, Event.callback i]

/-- Concatenation of `n` per-item traces starting at item `i`. -/
def concatTraces (itemTrace : Nat → Nat → List Event) (total : Nat) :
    Nat → Nat → List Event
  | _, 0 => []
  | i, n + 1 => itemTrace total i ++ concatTraces itemTrace total (i + 1) n

/-- When an item decodes, the loop's trace is that item's code-order events
followed by the trace of the remaining items. -/
theorem processLoop_cons_trace (env : Env) (cn : List String) (total : Nat)
    (image : Image) (rest : List Image) (i : Nat) (pixels : List Nat)
    (hd : env.decodeDraw image = some pixels) :
    (processLoop env cn total (image :: rest) i).trace =
      codeItemTrace total i ++
        (processLoop env cn total rest (i + 1)).trace := by
  have hpre : preprocessImage env image =
      PreprocessResult.resolved (pixels.map fun p => (p : ℚ) / 255) := by
    simp [preprocessImage, hd]
  simp only [processLoop, hpre]
  cases processLoop env cn total rest (i + 1) <;>
    simp [LoopResult.trace, codeItemTrace]

/-- C4 (amended): for every batch whose images all decode, the loop
completes and its event trace consists, for each item `i` in order, of:
the progress update to `(i + 1, total)` FIRST, then preprocessing, then
classification, then the result append, then the per-item callback —
i.e. the progress counter is advanced at the top of the iteration, before
the item's classification has completed, not after the append as the
specification claims. -/
theorem processLoop_item_order (env : Env) (cn : List String) (total : Nat) :
    ∀ (inputs : List Image) (i : Nat),
      (∀ img ∈ inputs, env.decodeDraw img ≠ none) →
      (processLoop env cn total inputs i).trace =
        concatTraces codeItemTrace total i inputs.length := by
  intro inputs
  induction inputs with
  | nil => intro i _; rfl
  | cons image rest ih =>
    intro i h
    have himg : env.decodeDraw image ≠ none :=
      h image (List.mem_cons_self _ _)
    cases hd : env.decodeDraw image with
    | none => exact absurd hd himg
    | some pixels =>
      rw [processLoop_cons_trace env cn total image rest i pixels hd,
        ih (i + 1) (fun img hm => h img (List.mem_cons_of_mem _ hm))]
      simp [concatTraces]

/-- Counterexample for C4: on a concrete one-image batch the observed
event trace differs from the spec's per-item order (the progress update is
emitted before preprocessing and classification, not after the append) and
equals the code order instead. -/
theorem processLoop_item_order_counterexample :
    (processLoop envW defaultClassNames 1 [imgA] 0).trace ≠
      concatTraces specItemTrace 1 0 1 ∧
    (processLoop envW defaultClassNames 1 [imgA] 0).trace =
      concatTraces codeItemTrace 1 0 1 := by decide

/-- Witness for C4 (amended) on the concrete one-image batch. -/
theorem processLoop_item_order_witness :
    (processLoop envW defaultClassNames 1 [imgA] 0).trace =
      concatTraces codeItemTrace 1 0 [imgA].length :=
  processLoop_item_order envW defaultClassNames 1 [imgA] 0 (by decide)

/-- C5 (amended): when the archive build fails after classification has
completed, the `catch` path is taken: the computed classification results
are discarded rather than recorded — the session's classified-results
state and the selected batch are left exactly as before the run, and the
`finally` block resets the progress pair. -/
theorem processBatchImages_archiveFail_state (env : Env) (cn : List String)
    (s : SessionState)
    (h : ((processBatchImages env cn s).2.1).isFailed = true) :
    (processBatchImages env cn s).1.classifiedImages = s.classifiedImages ∧
    (processBatchImages env cn s).1.batchImages = s.batchImages ∧
    (processBatchImages env cn s).1.batchProgress = (0, 0) := by
  by_cases hguard : s.batchImages.length = 0
  · simp [processBatchImages, hguard, BatchOutcome.isFailed] at h
  · cases hloop : processLoop env cn s.batchImages.length s.batchImages 0 with
    | stall i tr =>
      simp [processBatchImages, hguard, hloop, BatchOutcome.isFailed] at h
    | ok p ns ts us tr =>
      by_cases hak : env.archiveOk = true
      · simp [processBatchImages, hguard, hloop, hak,
          BatchOutcome.isFailed] at h
      · simp [processBatchImages, hguard, hloop, hak]

/-- Counterexample for C5: a concrete run in which classification of the
single image completes, the archive build throws, and the computed result
is NOT retained in the session's classified-results state, which stays
empty. -/
theorem archiveFail_results_lost_counterexample :
    ((processBatchImages envFail defaultClassNames sW).2.1).isFailed = true ∧
    (processBatchImages envFail defaultClassNames sW).1.classifiedImages =
      [] := by decide

/-- Witness for C5 (amended) on the concrete failing-archive run. -/
theorem processBatchImages_archiveFail_state_witness :
    (processBatchImages envFail defaultClassNames sW).1.classifiedImages =
      sW.classifiedImages ∧
    (processBatchImages envFail defaultClassNames sW).1.batchProgress =
      (0, 0) :=
  ⟨(processBatchImages_archiveFail_state envFail defaultClassNames sW
      (by decide)).1,
   (processBatchImages_archiveFail_state envFail defaultClassNames sW
      (by decide)).2.2⟩

/-- C8 (amended): the label equals `labels[index]` when the index is in
range and the stored label is non-empty; the synthesized placeholder
`"Class <index>"` is produced exactly when the index is out of range OR
the stored label is the empty string (JavaScript `||` treats the empty
string like a missing entry). -/
theorem labelLookup_spec (classNames : List String) (i : Nat) :
    (∀ s, classNames[i]? = some s → s ≠ "" →
      labelLookup classNames i = s) ∧
    ((classNames.length ≤ i ∨ classNames[i]? = some "") →
      labelLookup classNames i = "Class " ++ natStr i) := by
  constructor
  · intro s hs hne
    simp [labelLookup, hs, hne]
  · intro h
    rcases h with h | h
    · have hnone : classNames[i]? = none := List.getElem?_eq_none h
      simp [labelLookup, hnone]
    · simp [labelLookup, h]

/-- Counterexample for C8: with label list `[""]` index 0 is in range, yet
the code yields the placeholder instead of the stored (empty) label. -/
theorem labelLookup_in_range_counterexample :
    ([""] : List String)[0]? = some "" ∧
    labelLookup [""] 0 = "Class 0" ∧
    labelLookup [""] 0 ≠ ([""] : List String).getD 0 "?" := by decide

/-- Witness for C8 (amended) at the default class names: index 1 in range
with a non-empty label, and the out-of-range index 5. -/
theorem labelLookup_spec_witness :
    labelLookup defaultClassNames 1 = "Normal" ∧
    labelLookup defaultClassNames 5 = "Class " ++ natStr 5 :=
  ⟨(labelLookup_spec defaultClassNames 1).1 "Normal" (by decide) (by decide),
   (labelLookup_spec defaultClassNames 5).2 (Or.inl (by decide))⟩

/-- C9: An undecodable image does not make the preprocessor fail with a
propagated error that aborts the batch — the promise stays pending forever
and the run stalls: the outcome is neither the error path nor success, the
progress state stays stuck at `(1, 1)` and the `finally` cleanup never
runs. -/
theorem preprocess_undecodable_stalls :
    preprocessImage envBad imgA = PreprocessResult.pending ∧
    processBatchImages envBad defaultClassNames sW =
      (⟨[], [imgA], (1, 1)⟩, BatchOutcome.stalled 0,
        [Event.progressUpdate 0 1, Event.progressUpdate 1 1]) ∧
    ((processBatchImages envBad defaultClassNames sW).2.1).isFailed = false ∧
    ((processBatchImages envBad defaultClassNames sW).2.1).isSuccess =
      false := by decide

